import Mathlib

/-!
Shallow embedding of `src/fuzzer.py` (a mutation-based string fuzzer).

Modelling conventions:
- Python strings are `List Char`; assigning a (possibly multi-character)
  replacement string into one slot of `list(mutatable)` followed by
  `"".join(...)` is `assign_join`.
- Randomness (`random.random()`, `random.choice(...)`) is modelled by an
  explicit stream state `Rng`: a list of rational draws for `random.random()`
  and a list of naturals for `random.choice`, where `random.choice(l)` picks
  the element at index `k % l.length` for the next natural `k` (any uniformly
  possible outcome corresponds to some stream).  An exhausted stream yields 0.
- `random.choice` on an empty sequence raises `IndexError`; fallible code
  returns `Except Err`.
- Bounded `for _ in range(error_limit)` loops become structural recursion on
  the remaining iteration count.
-/

/-- The only run-time error the embedded code can raise: `random.choice` on an
empty sequence (an `IndexError` in Python). -/
inductive Err where
  | emptyChoice
deriving DecidableEq

/-- State of the pseudo-random source: pending `random.random()` draws (each a
rational in place of a float) and pending `random.choice` index draws. -/
structure Rng where
  floats : List Rat
  choices : List Nat
deriving DecidableEq

/-- One `random.random()` draw. -/
def draw_float (g : Rng) : Rat × Rng :=
  (g.floats.headD 0, ⟨g.floats.tail, g.choices⟩)

/-- One index draw feeding `random.choice`. -/
def draw_nat (g : Rng) : Nat × Rng :=
  (g.choices.headD 0, ⟨g.floats, g.choices.tail⟩)

/-- Models `random.choice(l)`: raises on an empty sequence, otherwise returns the
element at a drawn index. -/
def choice {α : Type} (l : List α) (g : Rng) : Except Err (α × Rng) :=
  match l with
  | [] => .error .emptyChoice
  | a :: as =>
    let (k, g1) := draw_nat g
    .ok ((a :: as).getD (k % (as.length + 1)) a, g1)

/-- Models `Fuzzer._indexed_choice`: `random.choice(list(enumerate(mutatable)))`,
i.e. a uniformly drawn (index, character) pair; raises on the empty string. -/
def indexed_choice (mutatable : List Char) (g : Rng) :
    Except Err ((Nat × Char) × Rng) :=
  match mutatable with
  | [] => .error .emptyChoice
  | a :: as =>
    let (k, g1) := draw_nat g
    let index := k % (as.length + 1)
    .ok ((index, (a :: as).getD index a), g1)

/-- Source `self._lowercase = list(string.ascii_lowercase)`. -/
def lowercase_chars : List Char := "abcdefghijklmnopqrstuvwxyz".toList

/-- Source `self._uppercase = list(string.ascii_uppercase)`. -/
def uppercase_chars : List Char := "ABCDEFGHIJKLMNOPQRSTUVWXYZ".toList

/-- Source `self._special = list(".*#")`. -/
def special_chars : List Char := ['.', '*', '#']

/-- Source `self._numbers = list(string.digits)`. -/
def numbers_chars : List Char := "0123456789".toList

/-- Source `self._leet`: the leet-substitution dict.  Values are replacement
strings; note the entries for 'V' and 'v' whose single candidate is the
two-character string made of a backslash and a slash. -/
def leet_table : List (Char × List (List Char)) :=
  [('a', [['4'], ['@']]), ('A', [['4'], ['@']]),
   ('i', [['1'], ['!']]), ('I', [['1'], ['!']]),
   ('t', [['7']]), ('T', [['7']]),
   ('o', [['0']]), ('O', [['0']]),
   ('s', [['5']]), ('S', [['5']]),
   ('V', [['\\', '/']]), ('v', [['\\', '/']]),
   ('e', [['3']]), ('E', [['3']]),
   ('g', [['9']]), ('G', [['9']]),
   ('C', [['('], ['K']]), ('c', [['('], ['k']]),
   ('K', [['C']]), ('k', [['c']])]

/-- Source `self._non_latin`: the homoglyph dict.  The Python dict literal writes the
key 'a' twice; dict semantics keep the last value, so 'a' maps to the accented
list and the earlier `["ª"]` entry is dropped. -/
def non_latin_table : List (Char × List (List Char)) :=
  [('c', [['¢'], ['©'], ['Ç'], ['ç']]),
   ('S', [['$']]),
   ('E', [['€'], ['È'], ['É'], ['Ê'], ['Ë']]),
   ('C', [['©'], ['Ç'], ['ç']]),
   ('a', [['à'], ['á'], ['â'], ['ã'], ['ä'], ['å']]),
   ('R', [['®']]),
   ('A', [['À'], ['Á'], ['Â'], ['Ã'], ['Ä'], ['Å']]),
   ('I', [['Ì'], ['Í'], ['Î'], ['Ï']]),
   ('D', [['Ð']]),
   ('N', [['Ñ']]),
   ('O', [['Ò'], ['Ó'], ['Ô'], ['Õ'], ['Ö'], ['Ø'], ['ð'], ['ø']]),
   ('X', [['×']]),
   ('x', [['×']]),
   ('U', [['Ù'], ['Ú'], ['Û'], ['Ü']]),
   ('Y', [['Ý']]),
   ('P', [['Þ']]),
   ('p', [['Þ']]),
   ('B', [['ß']]),
   ('e', [['è'], ['é'], ['ê'], ['ë']]),
   ('i', [['ì'], ['í'], ['î'], ['ï']]),
   ('o', [['ð'], ['ò'], ['ó'], ['ô'], ['õ'], ['ö'], ['ø']]),
   ('n', [['ñ']]),
   ('u', [['ù'], ['ú'], ['û'], ['ü']]),
   ('y', [['ý'], ['ÿ']]),
   ('H', [['Ĥ'], ['Ħ']]),
   ('h', [['ĥ']]),
   ('k', [['ķ']])]

/-- Models `mutatable[index] = repl` on `list(mutatable)` followed by `"".join(...)`:
the slot at `index` is replaced by the (possibly multi-character) string
`repl` and everything is concatenated back. -/
def assign_join (mutatable : List Char) (index : Nat) (repl : List Char) :
    List Char :=
  mutatable.take index ++ repl ++ mutatable.drop (index + 1)

/-- Models `Fuzzer._leet_replace`: up to `error_limit` times draw an indexed
character; on a leet-table key replace it with a uniformly chosen candidate
and stop; otherwise give up and return the input unchanged. -/
def leet_replace (error_limit : Nat) (mutatable : List Char) (g : Rng) :
    Except Err (List Char × Rng) :=
  match error_limit with
  | 0 => .ok (mutatable, g)
  | n + 1 =>
    match indexed_choice mutatable g with
    | .error e => .error e
    | .ok ((index, letter), g1) =>
      match List.lookup letter leet_table with
      | some cands =>
        match choice cands g1 with
        | .error e => .error e
        | .ok (repl, g2) => .ok (assign_join mutatable index repl, g2)
      | none => leet_replace n mutatable g1

/-- Models `Fuzzer._uppercase_replace`: up to `error_limit` times draw an indexed
character; on a lowercase letter replace it by the uppercase letter at the
same alphabet position and stop; otherwise return the input unchanged. -/
def uppercase_replace (error_limit : Nat) (mutatable : List Char) (g : Rng) :
    Except Err (List Char × Rng) :=
  match error_limit with
  | 0 => .ok (mutatable, g)
  | n + 1 =>
    match indexed_choice mutatable g with
    | .error e => .error e
    | .ok ((index, letter), g1) =>
      if letter ∈ lowercase_chars then
        let repl := uppercase_chars.getD (lowercase_chars.indexOf letter) 'A'
        .ok (assign_join mutatable index [repl], g1)
      else uppercase_replace n mutatable g1

/-- Models `Fuzzer._lowercase_replace`: up to `error_limit` times draw an indexed
character; on an uppercase letter replace it by the lowercase letter at the
same alphabet position and stop; otherwise return the input unchanged. -/
def lowercase_replace (error_limit : Nat) (mutatable : List Char) (g : Rng) :
    Except Err (List Char × Rng) :=
  match error_limit with
  | 0 => .ok (mutatable, g)
  | n + 1 =>
    match indexed_choice mutatable g with
    | .error e => .error e
    | .ok ((index, letter), g1) =>
      if letter ∈ uppercase_chars then
        let repl := lowercase_chars.getD (uppercase_chars.indexOf letter) 'a'
        .ok (assign_join mutatable index [repl], g1)
      else lowercase_replace n mutatable g1

/-- Models `Fuzzer._special_replace`: draw one indexed character and overwrite it
with a uniformly chosen special character, in a single attempt. -/
def special_replace (mutatable : List Char) (g : Rng) :
    Except Err (List Char × Rng) :=
  match indexed_choice mutatable g with
  | .error e => .error e
  | .ok ((index, _letter), g1) =>
    match choice special_chars g1 with
    | .error e => .error e
    | .ok (repl, g2) => .ok (assign_join mutatable index [repl], g2)

/-- Models `Fuzzer._non_latin_replace`: like `leet_replace` but over the homoglyph
table (the source's `self._error_limit = self._error_limit` line is a no-op). -/
def non_latin_replace (error_limit : Nat) (mutatable : List Char) (g : Rng) :
    Except Err (List Char × Rng) :=
  match error_limit with
  | 0 => .ok (mutatable, g)
  | n + 1 =>
    match indexed_choice mutatable g with
    | .error e => .error e
    | .ok ((index, letter), g1) =>
      match List.lookup letter non_latin_table with
      | some cands =>
        match choice cands g1 with
        | .error e => .error e
        | .ok (repl, g2) => .ok (assign_join mutatable index repl, g2)
      | none => non_latin_replace n mutatable g1

/-- Identity of a built-in mutator; `self._mutators` holds bound methods and
`_mutate` compares them by identity, which this tag models. -/
inductive Mutator where
  | leet
  | lowercase
  | uppercase
  | special
  | nonLatin
deriving DecidableEq

/-- Source `self._mutators`, in source order: `[_leet_replace, _lowercase_replace,
_uppercase_replace, _special_replace, _non_latin_replace]`. -/
def mutators : List Mutator :=
  [.leet, .lowercase, .uppercase, .special, .nonLatin]

/-- Dispatch a mutator tag to its function (the call `mutator(input)`). -/
def apply_mutator (m : Mutator) (error_limit : Nat) (s : List Char) (g : Rng) :
    Except Err (List Char × Rng) :=
  match m with
  | .leet => leet_replace error_limit s g
  | .lowercase => lowercase_replace error_limit s g
  | .uppercase => uppercase_replace error_limit s g
  | .special => special_replace s g
  | .nonLatin => non_latin_replace error_limit s g

/-- Source `Fuzzer.SPECIAL_CHANCE = 0.1`. -/
def SPECIAL_CHANCE : Rat := 1 / 10

/-- Models `Fuzzer._mutate`: `while True:` draw a mutator uniformly; a non-special
draw is applied at once; a special draw is applied only when a fresh
`random.random()` is below `special_mutation_chance`, otherwise the whole
draw is retried.  The loop consumes one index draw per iteration and, once
the index stream is exhausted, draw 0 selects the (non-special) leet mutator,
so the recursion is bounded by the length of the index stream. -/
def mutate (error_limit : Nat) (input : List Char)
    (special_mutation_chance : Rat) (g : Rng) : Except Err (List Char × Rng) :=
  if h : mutators.getD ((draw_nat g).1 % mutators.length) Mutator.leet
      = Mutator.special then
    if (draw_float (draw_nat g).2).1 < special_mutation_chance then
      apply_mutator Mutator.special error_limit input (draw_float (draw_nat g).2).2
    else
      mutate error_limit input special_mutation_chance (draw_float (draw_nat g).2).2
  else
    apply_mutator (mutators.getD ((draw_nat g).1 % mutators.length) Mutator.leet)
      error_limit input (draw_nat g).2
termination_by g.choices.length
decreasing_by
  rcases hc : g.choices with _ | ⟨c, cs⟩
  · simp [draw_nat, mutators, hc] at h
  · simp [draw_float, draw_nat, hc]

/-- Models `Fuzzer._mutate_all`: build a fresh list, each element mutated with
probability `mutation_chance` and kept otherwise. -/
def mutate_all (error_limit : Nat) (inputs : List (List Char))
    (mutation_chance : Rat) (g : Rng) :
    Except Err (List (List Char) × Rng) :=
  match inputs with
  | [] => .ok ([], g)
  | input :: rest =>
    let (r, g1) := draw_float g
    if r < mutation_chance then
      match mutate error_limit input SPECIAL_CHANCE g1 with
      | .error e => .error e
      | .ok (input1, g2) =>
        match mutate_all error_limit rest mutation_chance g2 with
        | .error e => .error e
        | .ok (rest1, g3) => .ok (input1 :: rest1, g3)
    else
      match mutate_all error_limit rest mutation_chance g1 with
      | .error e => .error e
      | .ok (rest1, g2) => .ok (input :: rest1, g2)

/-- Outcome of one call of the user's test function: it either raises or
returns a value whose truthiness is `truthy`. -/
inductive TestOutcome where
  | raises
  | returns (truthy : Bool)
deriving DecidableEq

/-- Models `Fuzzer._run`: call the test function once inside a bare try/except;
a raise yields `True`, a normal return yields `with_ret_val and value`. -/
def run_internal (input : List Char) (func : List Char → TestOutcome)
    (with_ret_val : Bool) : Bool :=
  match func input with
  | .raises => true
  | .returns v => with_ret_val && v

/-- The per-generation test loop of `Fuzzer.run`: each input whose test call
signals a hit is appended to the candidate list. -/
def test_inputs (func : List Char → TestOutcome) (with_ret_val : Bool)
    (inputs candidates : List (List Char)) : List (List Char) :=
  match inputs with
  | [] => candidates
  | input :: rest =>
    if run_internal input func with_ret_val then
      test_inputs func with_ret_val rest (candidates ++ [input])
    else
      test_inputs func with_ret_val rest candidates

/-- The inner `for _ in range(mutation_depth)` loop of `Fuzzer.run`: test the
current population, then replace it by `mutate_all`'s fresh generation. -/
def run_generations (error_limit : Nat) (func : List Char → TestOutcome)
    (with_ret_val : Bool) (mutation_chance : Rat) :
    Nat → List (List Char) → List (List Char) → Rng →
      Except Err (List (List Char) × Rng)
  | 0, _inputs, candidates, g => .ok (candidates, g)
  | d + 1, inputs, candidates, g =>
    let candidates1 := test_inputs func with_ret_val inputs candidates
    match mutate_all error_limit inputs mutation_chance g with
    | .error e => .error e
    | .ok (inputs1, g1) =>
      run_generations error_limit func with_ret_val mutation_chance d
        inputs1 candidates1 g1

/-- The outer `for _ in tqdm(range(trials))` loop of `Fuzzer.run`: every
iteration rebinds the working population to `original_input` before running
the generations. -/
def run_trials (error_limit : Nat) (func : List Char → TestOutcome)
    (with_ret_val : Bool) (original_input : List (List Char))
    (mutation_chance : Rat) (mutation_depth : Nat) :
    Nat → List (List Char) → Rng → Except Err (List (List Char) × Rng)
  | 0, candidates, g => .ok (candidates, g)
  | t + 1, candidates, g =>
    match run_generations error_limit func with_ret_val mutation_chance
        mutation_depth original_input candidates g with
    | .error e => .error e
    | .ok (candidates1, g1) =>
      run_trials error_limit func with_ret_val original_input mutation_chance
        mutation_depth t candidates1 g1

/-- Engine state: `self._error_limit` (the retry bound the mutators read),
the attribute `self.error_limit` that only comes into being when
`set_error_limit` runs (hence an `Option`), and `self._candidates`. -/
structure Fuzzer where
  errorLimitInternal : Nat
  errorLimitPublic : Option Nat
  candidates : List (List Char)
deriving DecidableEq

/-- Models `Fuzzer.__init__`: default retry bound 100, no `error_limit` attribute,
empty candidate list. -/
def fuzzer_init : Fuzzer :=
  { errorLimitInternal := 100, errorLimitPublic := none, candidates := [] }

/-- Models `Fuzzer.set_error_limit`: the body is `self.error_limit =
self._error_limit` — it creates/overwrites the public attribute with the
current internal bound and ignores its argument. -/
def set_error_limit (f : Fuzzer) (error_limit : Nat) : Fuzzer :=
  { f with errorLimitPublic := some f.errorLimitInternal }

/-- Models `self._candidates.append(candidate)`. -/
def record_candidate (candidates : List (List Char)) (c : List Char) :
    List (List Char) :=
  candidates ++ [c]

/-- The deduplicated view `set(self._candidates)` that `print_candidates`
hands to the caller (structural string equality). -/
def candidate_set (candidates : List (List Char)) : List (List Char) :=
  candidates.dedup

/-- Models `Fuzzer.print_candidates`: prints `set(self._candidates)`. -/
def print_candidates (f : Fuzzer) : List (List Char) :=
  candidate_set f.candidates

/-- Models `Fuzzer.run` for a seed population already in list form: run the trials
against the stored candidate list and store the extended list back. -/
def Fuzzer.run (f : Fuzzer) (inputs : List (List Char))
    (func : List Char → TestOutcome) (mutation_chance : Rat)
    (trials : Nat) (mutation_depth : Nat) (with_ret_val : Bool) (g : Rng) :
    Except Err (Fuzzer × Rng) :=
  match run_trials f.errorLimitInternal func with_ret_val inputs
      mutation_chance mutation_depth trials f.candidates g with
  | .error e => .error e
  | .ok (candidates1, g1) => .ok ({ f with candidates := candidates1 }, g1)

/-! ## General helper lemmas -/

theorem getD_mem {α : Type} {l : List α} {i : Nat} (d : α) (h : i < l.length) :
    l.getD i d ∈ l := by
  rw [List.getD_eq_getElem l d h]
  exact List.getElem_mem h

theorem getD_default_irrel {α : Type} {l : List α} {i : Nat}
    (h : i < l.length) (d1 d2 : α) : l.getD i d1 = l.getD i d2 := by
  rw [List.getD_eq_getElem l d1 h, List.getD_eq_getElem l d2 h]

theorem lookup_mem {α β : Type} [BEq α] [LawfulBEq α] {a : α} {b : β}
    {l : List (α × β)} (h : List.lookup a l = some b) : (a, b) ∈ l := by
  induction l with
  | nil => simp [List.lookup] at h
  | cons p rest ih =>
    obtain ⟨k, v⟩ := p
    rw [List.lookup] at h
    cases hk : a == k with
    | true =>
      rw [hk] at h
      cases h
      have hka : a = k := eq_of_beq hk
      subst hka
      exact List.mem_cons_self _ _
    | false =>
      rw [hk] at h
      exact List.mem_cons_of_mem _ (ih h)

theorem choice_mem {α : Type} {l : List α} {x : α} {g g1 : Rng}
    (h : choice l g = .ok (x, g1)) : x ∈ l := by
  cases l with
  | nil => simp [choice] at h
  | cons a as =>
    simp only [choice, Except.ok.injEq, Prod.mk.injEq] at h
    have hlt : (draw_nat g).1 % (as.length + 1) < (a :: as).length := by
      simpa using Nat.mod_lt ((draw_nat g).1) (Nat.succ_pos as.length)
    rw [← h.1]
    exact getD_mem a hlt

theorem indexed_choice_spec {s : List Char} {i : Nat} {c : Char} {g g1 : Rng}
    (h : indexed_choice s g = .ok ((i, c), g1)) :
    i < s.length ∧ c = s.getD i 'a' := by
  cases s with
  | nil => simp [indexed_choice] at h
  | cons a as =>
    simp only [indexed_choice, Except.ok.injEq, Prod.mk.injEq] at h
    obtain ⟨⟨hi, hc⟩, hg⟩ := h
    have hlt : (draw_nat g).1 % (as.length + 1) < (a :: as).length := by
      simpa using Nat.mod_lt ((draw_nat g).1) (Nat.succ_pos as.length)
    constructor
    · rw [← hi]; simpa using hlt
    · rw [← hc, ← hi]
      exact getD_default_irrel hlt a 'a'

theorem eq_take_getD_drop {α : Type} {l : List α} {i : Nat} (h : i < l.length) (d : α) :
    l = l.take i ++ [l.getD i d] ++ l.drop (i + 1) := by
  rw [List.getD_eq_getElem l d h, List.append_assoc, List.singleton_append,
    ← List.drop_eq_getElem_cons h, List.take_append_drop]

theorem assign_join_length {s repl : List Char} {i : Nat} (h : i < s.length) :
    (assign_join s i repl).length + 1 = s.length + repl.length := by
  simp only [assign_join, List.length_append, List.length_take, List.length_drop]
  omega

theorem assign_join_ne {s repl : List Char} {i : Nat} (h : i < s.length)
    (hne : repl ≠ [s.getD i 'a']) : assign_join s i repl ≠ s := by
  intro heq
  apply hne
  have hs := eq_take_getD_drop h 'a'
  rw [assign_join] at heq
  have h2 : s.take i ++ repl ++ s.drop (i + 1)
      = s.take i ++ [s.getD i 'a'] ++ s.drop (i + 1) := by
    rw [heq]; exact hs
  exact List.append_cancel_left (List.append_cancel_right h2)
/-- The substitution table each table-backed mutator consults, read off the
source: the leet and homoglyph dicts, and for the case-flip mutators the
corresponding letter of the other alphabet (the special mutator's "table" is
every special character, for every input character). -/
def mutator_table (m : Mutator) (ch : Char) : List (List Char) :=
  match m with
  | .leet => (List.lookup ch leet_table).getD []
  | .lowercase =>
    if ch ∈ uppercase_chars then
      [[lowercase_chars.getD (uppercase_chars.indexOf ch) 'a']]
    else []
  | .uppercase =>
    if ch ∈ lowercase_chars then
      [[uppercase_chars.getD (lowercase_chars.indexOf ch) 'A']]
    else []
  | .special => special_chars.map (fun c => [c])
  | .nonLatin => (List.lookup ch non_latin_table).getD []

theorem leet_table_no_fixed : ∀ p ∈ leet_table, ∀ c ∈ p.2, c ≠ [p.1] := by decide

theorem non_latin_table_no_fixed : ∀ p ∈ non_latin_table, ∀ c ∈ p.2, c ≠ [p.1] := by
  decide

theorem uppercase_map_ne :
    ∀ ch ∈ lowercase_chars,
      [uppercase_chars.getD (lowercase_chars.indexOf ch) 'A'] ≠ [ch] := by decide

theorem lowercase_map_ne :
    ∀ ch ∈ uppercase_chars,
      [lowercase_chars.getD (uppercase_chars.indexOf ch) 'a'] ≠ [ch] := by decide

theorem mutator_table_ne {m : Mutator} {ch : Char} {repl : List Char}
    (hm : m ≠ Mutator.special) (h : repl ∈ mutator_table m ch) : repl ≠ [ch] := by
  cases m with
  | leet =>
    simp only [mutator_table] at h
    cases hlk : List.lookup ch leet_table with
    | none => rw [hlk] at h; simp at h
    | some cands =>
      rw [hlk] at h
      exact leet_table_no_fixed (ch, cands) (lookup_mem hlk) repl (by simpa using h)
  | nonLatin =>
    simp only [mutator_table] at h
    cases hlk : List.lookup ch non_latin_table with
    | none => rw [hlk] at h; simp at h
    | some cands =>
      rw [hlk] at h
      exact non_latin_table_no_fixed (ch, cands) (lookup_mem hlk) repl (by simpa using h)
  | lowercase =>
    simp only [mutator_table] at h
    split at h
    · rename_i hmem
      simp only [List.mem_singleton] at h
      rw [h]
      exact lowercase_map_ne ch hmem
    · simp at h
  | uppercase =>
    simp only [mutator_table] at h
    split at h
    · rename_i hmem
      simp only [List.mem_singleton] at h
      rw [h]
      exact uppercase_map_ne ch hmem
    · simp at h
  | special => exact absurd rfl hm

theorem leet_replace_shape {el : Nat} {s s2 : List Char} {g g2 : Rng} :
    leet_replace el s g = .ok (s2, g2) →
    s2 = s ∨ ∃ i repl, i < s.length ∧
      repl ∈ mutator_table Mutator.leet (s.getD i 'a') ∧
      s2 = assign_join s i repl := by
  induction el generalizing g with
  | zero =>
    intro h
    simp only [leet_replace, Except.ok.injEq, Prod.mk.injEq] at h
    exact Or.inl h.1.symm
  | succ n ih =>
    intro h
    simp only [leet_replace] at h
    split at h
    · simp at h
    · rename_i index letter g1 heq
      split at h
      · rename_i cands hlk
        split at h
        · simp at h
        · rename_i repl g3 hch
          simp only [Except.ok.injEq, Prod.mk.injEq] at h
          obtain ⟨hi, hcd⟩ := indexed_choice_spec heq
          right
          refine ⟨index, repl, hi, ?_, h.1.symm⟩
          simp only [mutator_table]
          rw [← hcd, hlk]
          simpa using choice_mem hch
      · exact ih h

theorem non_latin_replace_shape {el : Nat} {s s2 : List Char} {g g2 : Rng} :
    non_latin_replace el s g = .ok (s2, g2) →
    s2 = s ∨ ∃ i repl, i < s.length ∧
      repl ∈ mutator_table Mutator.nonLatin (s.getD i 'a') ∧
      s2 = assign_join s i repl := by
  induction el generalizing g with
  | zero =>
    intro h
    simp only [non_latin_replace, Except.ok.injEq, Prod.mk.injEq] at h
    exact Or.inl h.1.symm
  | succ n ih =>
    intro h
    simp only [non_latin_replace] at h
    split at h
    · simp at h
    · rename_i index letter g1 heq
      split at h
      · rename_i cands hlk
        split at h
        · simp at h
        · rename_i repl g3 hch
          simp only [Except.ok.injEq, Prod.mk.injEq] at h
          obtain ⟨hi, hcd⟩ := indexed_choice_spec heq
          right
          refine ⟨index, repl, hi, ?_, h.1.symm⟩
          simp only [mutator_table]
          rw [← hcd, hlk]
          simpa using choice_mem hch
      · exact ih h

theorem uppercase_replace_shape {el : Nat} {s s2 : List Char} {g g2 : Rng} :
    uppercase_replace el s g = .ok (s2, g2) →
    s2 = s ∨ ∃ i repl, i < s.length ∧
      repl ∈ mutator_table Mutator.uppercase (s.getD i 'a') ∧
      s2 = assign_join s i repl := by
  induction el generalizing g with
  | zero =>
    intro h
    simp only [uppercase_replace, Except.ok.injEq, Prod.mk.injEq] at h
    exact Or.inl h.1.symm
  | succ n ih =>
    intro h
    simp only [uppercase_replace] at h
    split at h
    · simp at h
    · rename_i index letter g1 heq
      split at h
      · rename_i hmem
        simp only [Except.ok.injEq, Prod.mk.injEq] at h
        obtain ⟨hi, hcd⟩ := indexed_choice_spec heq
        right
        refine ⟨index, [uppercase_chars.getD (lowercase_chars.indexOf letter) 'A'],
          hi, ?_, h.1.symm⟩
        simp only [mutator_table]
        rw [← hcd]
        simp [hmem]
      · exact ih h

theorem lowercase_replace_shape {el : Nat} {s s2 : List Char} {g g2 : Rng} :
    lowercase_replace el s g = .ok (s2, g2) →
    s2 = s ∨ ∃ i repl, i < s.length ∧
      repl ∈ mutator_table Mutator.lowercase (s.getD i 'a') ∧
      s2 = assign_join s i repl := by
  induction el generalizing g with
  | zero =>
    intro h
    simp only [lowercase_replace, Except.ok.injEq, Prod.mk.injEq] at h
    exact Or.inl h.1.symm
  | succ n ih =>
    intro h
    simp only [lowercase_replace] at h
    split at h
    · simp at h
    · rename_i index letter g1 heq
      split at h
      · rename_i hmem
        simp only [Except.ok.injEq, Prod.mk.injEq] at h
        obtain ⟨hi, hcd⟩ := indexed_choice_spec heq
        right
        refine ⟨index, [lowercase_chars.getD (uppercase_chars.indexOf letter) 'a'],
          hi, ?_, h.1.symm⟩
        simp only [mutator_table]
        rw [← hcd]
        simp [hmem]
      · exact ih h
/-- C1: as stated the claim fails.  Applying the leet mutator to the
one-character string "v" (index draws 0, 0) succeeds and returns the
two-character string of a backslash followed by a slash — the table candidate
for 'v' — so the result is neither the input unchanged nor of equal length. -/
theorem C1_counterexample :
    apply_mutator Mutator.leet 100 ['v'] ⟨[], [0, 0]⟩
      = .ok (['\\', '/'], ⟨[], []⟩) ∧
    (['\\', '/'] : List Char) ≠ ['v'] ∧
    ¬(['\\', '/'] : List Char).length = (['v'] : List Char).length :=
  ⟨rfl, by decide, by decide⟩

/-- C1 (amended): for every non-empty string and every table-backed mutator,
a successful application either returns the input unchanged or replaces the
content of exactly one position by a candidate drawn from that mutator's
substitution table for the original character there; the candidate never
equals that original character, so the result then differs from the input,
and the length changes exactly by the candidate's length minus one (all
candidates are single characters, hence length-preserving, except the leet
entries for 'v' and 'V' whose sole candidate is two characters long). -/
theorem C1_table_backed_mutation_shape {m : Mutator} (hm : m ≠ Mutator.special)
    {el : Nat} {s s2 : List Char} (hs : s ≠ []) {g g2 : Rng}
    (h : apply_mutator m el s g = .ok (s2, g2)) :
    s2 = s ∨ ∃ i repl, i < s.length ∧
      repl ∈ mutator_table m (s.getD i 'a') ∧
      s2 = assign_join s i repl ∧ s2 ≠ s ∧
      s2.length + 1 = s.length + repl.length := by
  have hshape : s2 = s ∨ ∃ i repl, i < s.length ∧
      repl ∈ mutator_table m (s.getD i 'a') ∧ s2 = assign_join s i repl := by
    cases m with
    | leet => exact leet_replace_shape h
    | lowercase => exact lowercase_replace_shape h
    | uppercase => exact uppercase_replace_shape h
    | nonLatin => exact non_latin_replace_shape h
    | special => exact absurd rfl hm
  rcases hshape with h1 | ⟨i, repl, hi, hmem, heq⟩
  · exact Or.inl h1
  · right
    have hne : repl ≠ [s.getD i 'a'] := mutator_table_ne hm hmem
    refine ⟨i, repl, hi, hmem, heq, ?_, ?_⟩
    · rw [heq]; exact assign_join_ne hi hne
    · rw [heq]; exact assign_join_length hi

/-- C1 witness: the amended theorem applied to the leet mutator on "a". -/
theorem C1_witness :
    (Mutator.leet ≠ Mutator.special ∧ (['a'] : List Char) ≠ []) ∧
    ((['4'] : List Char) = ['a'] ∨ ∃ i repl, i < (['a'] : List Char).length ∧
      repl ∈ mutator_table Mutator.leet ((['a'] : List Char).getD i 'a') ∧
      (['4'] : List Char) = assign_join ['a'] i repl ∧
      (['4'] : List Char) ≠ ['a'] ∧
      (['4'] : List Char).length + 1 = (['a'] : List Char).length + repl.length) :=
  ⟨⟨by decide, by decide⟩, by
    have h : apply_mutator Mutator.leet 100 ['a'] ⟨[], [0, 0]⟩
        = .ok (['4'], ⟨[], []⟩) := rfl
    exact C1_table_backed_mutation_shape (by decide) (by decide) h⟩

/-- C2: the claim is right and the code is wrong.  `set_error_limit(5)` on a
fresh engine leaves the retry bound `self._error_limit` at its default 100
(the body assigns `self.error_limit = self._error_limit`, ignoring the
argument), so the retry bound does not become 5 as the claim and the method's
own docstring promise. -/
theorem C2_set_error_limit_is_noop :
    (set_error_limit fuzzer_init 5).errorLimitInternal = 100 ∧
    ¬(set_error_limit fuzzer_init 5).errorLimitInternal = 5 ∧
    set_error_limit fuzzer_init 5 =
      { errorLimitInternal := 100, errorLimitPublic := some 100,
        candidates := [] } :=
  ⟨rfl, by decide, rfl⟩

/-- C4: as stated the claim fails.  On the non-empty string "." the special
mutator (index draw 0, special-character draw 0 selecting '.') succeeds and
returns "." itself: a no-op, contradicting "never a no-op, its result always
differs from s". -/
theorem C4_counterexample :
    special_replace ['.'] ⟨[], [0, 0]⟩ = .ok (['.'], ⟨[], []⟩) := rfl

/-- C4 (amended): on every non-empty string the special mutator succeeds and
overwrites exactly one position with a character from the special-character
set, preserving the length — but the drawn character may equal the one
already there, so the result can equal the input; on the empty string it
fails cleanly with the empty-sequence selector error. -/
theorem C4_special_replace_shape (s : List Char) (g : Rng) :
    (s ≠ [] → ∃ i c g2, i < s.length ∧ c ∈ special_chars ∧
      special_replace s g = .ok (assign_join s i [c], g2) ∧
      (assign_join s i [c]).length = s.length) ∧
    (s = [] → special_replace s g = .error Err.emptyChoice) := by
  constructor
  · intro hs
    cases s with
    | nil => exact absurd rfl hs
    | cons a as =>
      cases hic : indexed_choice (a :: as) g with
      | error e => simp [indexed_choice] at hic
      | ok p =>
        obtain ⟨⟨i, c⟩, g1⟩ := p
        obtain ⟨hi, -⟩ := indexed_choice_spec hic
        cases hch : choice special_chars g1 with
        | error e => simp [choice, special_chars] at hch
        | ok q =>
          obtain ⟨r, g2⟩ := q
          refine ⟨i, r, g2, hi, choice_mem hch, ?_, ?_⟩
          · simp only [special_replace, hic, hch]
          · have := @assign_join_length (a :: as) [r] i hi
            simpa using this
  · intro hs
    subst hs
    rfl

/-- C4 witness: the amended theorem applied to the string "a". -/
theorem C4_witness :
    ((['a'] : List Char) ≠ [] ∧ (∃ i c g2, i < (['a'] : List Char).length ∧
      c ∈ special_chars ∧
      special_replace ['a'] ⟨[], [0, 0]⟩ = .ok (assign_join ['a'] i [c], g2) ∧
      (assign_join ['a'] i [c]).length = (['a'] : List Char).length)) ∧
    (([] : List Char) = [] ∧
      special_replace [] ⟨[], []⟩ = .error Err.emptyChoice) :=
  ⟨⟨by decide, (C4_special_replace_shape ['a'] ⟨[], [0, 0]⟩).1 (by decide)⟩,
   ⟨rfl, (C4_special_replace_shape [] ⟨[], []⟩).2 rfl⟩⟩

/-- C6: confirmed.  `_run` calls the test function once inside a bare
try/except, so no error propagates; in exception mode the call signals a hit
exactly when the function raises, and in boolean mode exactly when it returns
a truthy value or raises. -/
theorem C6_hit_signal (input : List Char) (func : List Char → TestOutcome) :
    (run_internal input func false = true ↔ func input = .raises) ∧
    (run_internal input func true = true ↔
      (func input = .raises ∨ func input = .returns true)) := by
  cases h : func input with
  | raises => simp [run_internal, h]
  | returns v => cases v <;> simp [run_internal, h]
/-- C3: the claim is right and the code is wrong.  `run` on a population
holding the empty string does not skip mutation: once the per-string coin
selects the empty string for mutation (first float draw 0 < mutationChance 1
here), the drawn mutator invokes the indexed-character selector on the empty
string, and the selector's empty-sequence error (`random.choice` of an empty
`enumerate` list, an `IndexError`) crashes the whole run. -/
theorem C3_empty_seed_crashes_run :
    Fuzzer.run fuzzer_init [[]] (fun _ => TestOutcome.returns false) 1 1 1 false
      ⟨[0], [0]⟩ = .error Err.emptyChoice := by
  have h1 : mutate 100 [] SPECIAL_CHANCE ⟨[], [0]⟩ = .error Err.emptyChoice := by
    simp [mutate, draw_nat, draw_float, mutators, apply_mutator, leet_replace,
      indexed_choice]
  have h2 : mutate_all 100 [[]] 1 ⟨[0], [0]⟩ = .error Err.emptyChoice := by
    norm_num [mutate_all, draw_float, h1]
  simp [Fuzzer.run, run_trials, run_generations, test_inputs, run_internal,
    fuzzer_init, h2]

/-- C5: as stated the claim fails.  Calling `run` with `trials = 0` (< 1) on a
fresh engine returns normally with the engine unchanged — no descriptive
error is raised, fast or otherwise. -/
theorem C5_counterexample :
    Fuzzer.run fuzzer_init [['a']] (fun _ => TestOutcome.raises) (1 / 2) 0 10
      false ⟨[], []⟩ = .ok (fuzzer_init, ⟨[], []⟩) := rfl

/-- C5 (amended): `run` performs no configuration validation and never fails
fast: with `trials < 1` or `mutationDepth < 1` the corresponding loop simply
executes zero times and `run` returns normally with the engine state
unchanged, and a `mutationChance` outside [0, 1] (here 3/2) is accepted
without error, the run completing normally. -/
theorem C5_no_config_validation (f : Fuzzer) (inputs : List (List Char))
    (func : List Char → TestOutcome) (mc : Rat) (trials depth : Nat)
    (wrv : Bool) (g : Rng) :
    Fuzzer.run f inputs func mc 0 depth wrv g = .ok (f, g) ∧
    Fuzzer.run f inputs func mc trials 0 wrv g = .ok (f, g) ∧
    Fuzzer.run fuzzer_init [['b']] (fun _ => TestOutcome.returns false) (3 / 2)
      1 1 false ⟨[0], []⟩ = .ok (fuzzer_init, ⟨[], []⟩) := by
  refine ⟨rfl, ?_, ?_⟩
  · induction trials with
    | zero => rfl
    | succ t ih =>
      simp only [Fuzzer.run, run_trials, run_generations] at ih ⊢
      exact ih
  · have h1 : mutate 100 ['b'] SPECIAL_CHANCE ⟨[], []⟩ = .ok (['b'], ⟨[], []⟩) := by
      simp [mutate, draw_nat, draw_float, mutators, apply_mutator]
      rfl
    have h2 : mutate_all 100 [['b']] (3 / 2) ⟨[0], []⟩
        = .ok ([['b']], ⟨[], []⟩) := by
      norm_num [mutate_all, draw_float, h1]
    simp [Fuzzer.run, run_trials, run_generations, test_inputs, run_internal,
      fuzzer_init, h2]

/-- C7: confirmed.  Every trial iteration of `run` starts the generations
from `original_input`, the caller's seed population, threading only the
candidate list and the random state between trials; and a successful
`mutate_all` returns exactly one output string per input string, so the
population length never changes within a trial. -/
theorem C7_trials_restart_from_seeds (el : Nat)
    (func : List Char → TestOutcome) (wrv : Bool) (seeds : List (List Char))
    (mc : Rat) (depth : Nat) :
    (∀ t cands g, run_trials el func wrv seeds mc depth (t + 1) cands g =
      match run_generations el func wrv mc depth seeds cands g with
      | .error e => .error e
      | .ok (cands1, g1) =>
        run_trials el func wrv seeds mc depth t cands1 g1) ∧
    (∀ xs g ys g2, mutate_all el xs mc g = .ok (ys, g2) →
      ys.length = xs.length) := by
  constructor
  · intro t cands g
    rfl
  · intro xs
    induction xs with
    | nil =>
      intro g ys g2 h
      simp only [mutate_all, Except.ok.injEq, Prod.mk.injEq] at h
      rw [← h.1]
    | cons x rest ih =>
      intro g ys g2 h
      simp only [mutate_all, draw_float] at h
      split at h
      · split at h
        · simp at h
        · rename_i x1 g1 hm
          split at h
          · simp at h
          · rename_i rest1 g3 hr
            simp only [Except.ok.injEq, Prod.mk.injEq] at h
            rw [← h.1, List.length_cons, List.length_cons, ih _ _ _ hr]
      · split at h
        · simp at h
        · rename_i rest1 g3 hr
          simp only [Except.ok.injEq, Prod.mk.injEq] at h
          rw [← h.1, List.length_cons, List.length_cons, ih _ _ _ hr]

/-- C7 witness: the length part applied to a concrete two-string population
(mutation chance 0, so both strings are kept). -/
theorem C7_witness :
    mutate_all 100 [['a'], ['b']] 0 ⟨[0, 0], []⟩
      = .ok ([['a'], ['b']], ⟨[], []⟩) ∧
    ([['a'], ['b']] : List (List Char)).length
      = ([['a'], ['b']] : List (List Char)).length :=
  ⟨rfl, (C7_trials_restart_from_seeds 100 (fun _ => TestOutcome.raises) false
    [] 0 0).2 [['a'], ['b']] ⟨[0, 0], []⟩ [['a'], ['b']] ⟨[], []⟩ rfl⟩
/-! ## Append-only behaviour of the candidate list during a run -/

theorem test_inputs_append (func : List Char → TestOutcome) (wrv : Bool) :
    ∀ inputs cands, ∃ t, test_inputs func wrv inputs cands = cands ++ t := by
  intro inputs
  induction inputs with
  | nil =>
    intro cands
    exact ⟨[], by simp [test_inputs]⟩
  | cons x rest ih =>
    intro cands
    simp only [test_inputs]
    split
    · obtain ⟨t, ht⟩ := ih (cands ++ [x])
      exact ⟨[x] ++ t, by rw [ht, List.append_assoc]⟩
    · exact ih cands

theorem run_generations_append (el : Nat) (func : List Char → TestOutcome)
    (wrv : Bool) (mc : Rat) :
    ∀ d inputs cands g cands2 g2,
      run_generations el func wrv mc d inputs cands g = .ok (cands2, g2) →
      ∃ t, cands2 = cands ++ t := by
  intro d
  induction d with
  | zero =>
    intro inputs cands g cands2 g2 h
    simp only [run_generations, Except.ok.injEq, Prod.mk.injEq] at h
    exact ⟨[], by rw [← h.1, List.append_nil]⟩
  | succ n ih =>
    intro inputs cands g cands2 g2 h
    simp only [run_generations] at h
    split at h
    · simp at h
    · rename_i inputs1 g1 hm
      obtain ⟨t1, ht1⟩ := test_inputs_append func wrv inputs cands
      obtain ⟨t2, ht2⟩ := ih inputs1 (test_inputs func wrv inputs cands) g1
        cands2 g2 h
      exact ⟨t1 ++ t2, by rw [ht2, ht1, List.append_assoc]⟩

theorem run_trials_append (el : Nat) (func : List Char → TestOutcome)
    (wrv : Bool) (seeds : List (List Char)) (mc : Rat) (depth : Nat) :
    ∀ t cands g cands2 g2,
      run_trials el func wrv seeds mc depth t cands g = .ok (cands2, g2) →
      ∃ tl, cands2 = cands ++ tl := by
  intro t
  induction t with
  | zero =>
    intro cands g cands2 g2 h
    simp only [run_trials, Except.ok.injEq, Prod.mk.injEq] at h
    exact ⟨[], by rw [← h.1, List.append_nil]⟩
  | succ n ih =>
    intro cands g cands2 g2 h
    simp only [run_trials] at h
    split at h
    · simp at h
    · rename_i cands1 g1 hg
      obtain ⟨t1, ht1⟩ := run_generations_append el func wrv mc depth seeds
        cands g cands1 g1 hg
      obtain ⟨t2, ht2⟩ := ih cands1 g1 cands2 g2 h
      exact ⟨t1 ++ t2, by rw [ht2, ht1, List.append_assoc]⟩

theorem fuzzer_run_append {f : Fuzzer} {inputs : List (List Char)}
    {func : List Char → TestOutcome} {mc : Rat} {trials depth : Nat}
    {wrv : Bool} {g : Rng} {f2 : Fuzzer} {g2 : Rng}
    (h : Fuzzer.run f inputs func mc trials depth wrv g = .ok (f2, g2)) :
    ∃ tl, f2.candidates = f.candidates ++ tl := by
  simp only [Fuzzer.run] at h
  split at h
  · simp at h
  · rename_i cands1 g1 hr
    obtain ⟨tl, htl⟩ := run_trials_append f.errorLimitInternal func wrv inputs
      mc depth trials f.candidates g cands1 g1 hr
    simp only [Except.ok.injEq, Prod.mk.injEq] at h
    rw [← h.1]
    exact ⟨tl, htl⟩

theorem dedup_append_dup {α : Type} [DecidableEq α] (c : α) :
    ∀ l : List α, ((l ++ [c]) ++ [c]).dedup = (l ++ [c]).dedup := by
  intro l
  induction l with
  | nil =>
    simp [List.dedup_cons_of_mem]
  | cons a rest ih =>
    by_cases ha : a ∈ rest ++ [c]
    · have ha2 : a ∈ (rest ++ [c]) ++ [c] := List.mem_append_left _ ha
      rw [List.cons_append, List.cons_append, List.dedup_cons_of_mem ha2,
        List.dedup_cons_of_mem ha, ih]
    · have ha2 : ¬a ∈ (rest ++ [c]) ++ [c] := by
        intro hmem
        rcases List.mem_append.1 hmem with h1 | h1
        · exact ha h1
        · simp only [List.mem_singleton] at h1
          subst h1
          exact ha (List.mem_append_right _ (List.mem_singleton_self a))
      rw [List.cons_append, List.cons_append, List.dedup_cons_of_not_mem ha2,
        List.dedup_cons_of_not_mem ha, ih]
/-- A default-configured engine whose candidate list is `cs` (the state a
fresh engine reaches after recording exactly the strings of `cs`). -/
def fuzzer_with (cs : List (List Char)) : Fuzzer :=
  { errorLimitInternal := 100, errorLimitPublic := none, candidates := cs }

/-- C8: confirmed.  The candidate store as read by the caller (the
`set(self._candidates)` view) behaves as a set under structural string
equality: recording the same candidate twice leaves the view identical to
recording it once, which holds the string exactly once (the view is a
member and duplicate-free); and during a run the underlying list is
append-only — a successful `run` only extends it. -/
theorem C8_candidate_store_set_view :
    (∀ (cands : List (List Char)) (c : List Char),
      candidate_set (record_candidate (record_candidate cands c) c)
        = candidate_set (record_candidate cands c) ∧
      c ∈ candidate_set (record_candidate cands c) ∧
      (candidate_set (record_candidate cands c)).Nodup) ∧
    (∀ (f : Fuzzer) (inputs : List (List Char))
        (func : List Char → TestOutcome) (mc : Rat) (trials depth : Nat)
        (wrv : Bool) (g : Rng) (f2 : Fuzzer) (g2 : Rng),
      Fuzzer.run f inputs func mc trials depth wrv g = .ok (f2, g2) →
      ∃ tl, f2.candidates = f.candidates ++ tl) := by
  constructor
  · intro cands c
    refine ⟨dedup_append_dup c cands, ?_, List.nodup_dedup _⟩
    exact List.mem_dedup.2
      (List.mem_append_right _ (List.mem_singleton_self c))
  · intro f inputs func mc trials depth wrv g f2 g2 h
    exact fuzzer_run_append h

/-- C8 witness: the append-only part applied to a concrete run that records
the seed "a" once. -/
theorem C8_witness :
    Fuzzer.run fuzzer_init [['a']] (fun _ => TestOutcome.raises) 0 1 1 false
      ⟨[0], []⟩ = .ok (fuzzer_with [['a']], ⟨[], []⟩) ∧
    ∃ tl, (fuzzer_with [['a']]).candidates = fuzzer_init.candidates ++ tl :=
  ⟨rfl, C8_candidate_store_set_view.2 fuzzer_init [['a']]
    (fun _ => TestOutcome.raises) 0 1 1 false ⟨[0], []⟩
    (fuzzer_with [['a']]) ⟨[], []⟩ rfl⟩

/-- C10: confirmed.  `run` never clears the candidate store: a later
successful `run` only appends to the list left by an earlier one, so every
candidate present after the first run is still present after the second,
and successive runs accumulate into the one store. -/
theorem C10_successive_runs_accumulate {f f1 f2 : Fuzzer}
    {i1 i2 : List (List Char)} {fn1 fn2 : List Char → TestOutcome}
    {mc1 mc2 : Rat} {t1 t2 d1 d2 : Nat} {w1 w2 : Bool} {ga gb g1 g2 : Rng}
    (h1 : Fuzzer.run f i1 fn1 mc1 t1 d1 w1 ga = .ok (f1, g1))
    (h2 : Fuzzer.run f1 i2 fn2 mc2 t2 d2 w2 gb = .ok (f2, g2)) :
    (∃ tl, f2.candidates = f1.candidates ++ tl) ∧
    ∀ c ∈ f1.candidates, c ∈ f2.candidates := by
  obtain ⟨tl, htl⟩ := fuzzer_run_append h2
  refine ⟨⟨tl, htl⟩, fun c hc => ?_⟩
  rw [htl]
  exact List.mem_append_left _ hc

/-- C10 witness: two consecutive concrete runs on the same engine, each
recording the seed "a" once. -/
theorem C10_witness :
    (Fuzzer.run fuzzer_init [['a']] (fun _ => TestOutcome.raises) 0 1 1 false
        ⟨[0], []⟩ = .ok (fuzzer_with [['a']], ⟨[], []⟩) ∧
      Fuzzer.run (fuzzer_with [['a']]) [['a']] (fun _ => TestOutcome.raises)
        0 1 1 false ⟨[0], []⟩
        = .ok (fuzzer_with [['a'], ['a']], ⟨[], []⟩)) ∧
    ((∃ tl, (fuzzer_with [['a'], ['a']]).candidates
        = (fuzzer_with [['a']]).candidates ++ tl) ∧
      ∀ c ∈ (fuzzer_with [['a']]).candidates,
        c ∈ (fuzzer_with [['a'], ['a']]).candidates) := by
  have h1 : Fuzzer.run fuzzer_init [['a']] (fun _ => TestOutcome.raises) 0 1 1
      false ⟨[0], []⟩ = .ok (fuzzer_with [['a']], ⟨[], []⟩) := rfl
  have h2 : Fuzzer.run (fuzzer_with [['a']]) [['a']]
      (fun _ => TestOutcome.raises) 0 1 1 false ⟨[0], []⟩
      = .ok (fuzzer_with [['a'], ['a']], ⟨[], []⟩) := rfl
  exact ⟨⟨h1, h2⟩, C10_successive_runs_accumulate h1 h2⟩
/-! ## Heap-level model of `run` (frame effect on the caller's seed list)

The pure embedding above cannot express whether `run` mutates the caller's
list object in place or only rebinds a local name.  The definitions below
re-run the same loops over an explicit store of list objects: addresses are
indices, `_mutate_all` reads its input list and allocates its fresh `ret`
list, and the trial loop rebinds the population address to the caller's
`seedsAddr` exactly where the source rebinds `inputs = original_input`.
No operation of `run` ever writes to an existing cell. -/

/-- A store of the string-list objects `run` touches; an address is an
index into `cells`. -/
structure Heap where
  cells : List (List (List Char))
deriving DecidableEq

/-- Contents of the list object at address `a`. -/
def Heap.get (h : Heap) (a : Nat) : List (List Char) :=
  h.cells.getD a []

/-- Allocate a fresh list object (the source's `ret = []` built up and
returned by `_mutate_all`): the new object gets the next address. -/
def Heap.alloc (h : Heap) (v : List (List Char)) : Heap × Nat :=
  (⟨h.cells ++ [v]⟩, h.cells.length)

/-- Models `Fuzzer._mutate_all` at the heap level: read the list at `a`, compute the
fresh generation, allocate it.  The input list is only read. -/
def mutate_all_heap (el : Nat) (h : Heap) (a : Nat) (mc : Rat) (g : Rng) :
    Except Err (Heap × Nat × Rng) :=
  match mutate_all el (h.get a) mc g with
  | .error e => .error e
  | .ok (ret, g1) =>
    match h.alloc ret with
    | (h1, b) => .ok (h1, b, g1)

/-- The generations loop at the heap level: the local name `inputs` is an
address, rebound to the freshly allocated generation each iteration. -/
def run_generations_heap (el : Nat) (func : List Char → TestOutcome)
    (wrv : Bool) (mc : Rat) :
    Nat → Heap → Nat → List (List Char) → Rng →
      Except Err (Heap × Nat × List (List Char) × Rng)
  | 0, h, a, cands, g => .ok (h, a, cands, g)
  | d + 1, h, a, cands, g =>
    let cands1 := test_inputs func wrv (h.get a) cands
    match mutate_all_heap el h a mc g with
    | .error e => .error e
    | .ok (h1, b, g1) => run_generations_heap el func wrv mc d h1 b cands1 g1

/-- The trials loop at the heap level: each trial rebinds the population
address to `seedsAddr`, the caller's list (`inputs = original_input`). -/
def run_trials_heap (el : Nat) (func : List Char → TestOutcome) (wrv : Bool)
    (seedsAddr : Nat) (mc : Rat) (depth : Nat) :
    Nat → Heap → List (List Char) → Rng →
      Except Err (Heap × List (List Char) × Rng)
  | 0, h, cands, g => .ok (h, cands, g)
  | t + 1, h, cands, g =>
    match run_generations_heap el func wrv mc depth h seedsAddr cands g with
    | .error e => .error e
    | .ok (h1, _a1, cands1, g1) =>
      run_trials_heap el func wrv seedsAddr mc depth t h1 cands1 g1

theorem mutate_all_heap_frame {el : Nat} {h : Heap} {a : Nat} {mc : Rat}
    {g : Rng} {h1 : Heap} {b : Nat} {g1 : Rng}
    (hr : mutate_all_heap el h a mc g = .ok (h1, b, g1)) :
    (∀ x, x < h.cells.length → h1.get x = h.get x) ∧
    h.cells.length ≤ h1.cells.length := by
  simp only [mutate_all_heap] at hr
  split at hr
  · simp at hr
  · rename_i ret g2 hm
    simp only [Heap.alloc, Except.ok.injEq, Prod.mk.injEq] at hr
    obtain ⟨hh, -, -⟩ := hr
    constructor
    · intro x hx
      rw [← hh]
      simp only [Heap.get]
      exact List.getD_append _ _ _ _ hx
    · rw [← hh]
      simp

theorem run_generations_heap_frame (el : Nat) (func : List Char → TestOutcome)
    (wrv : Bool) (mc : Rat) :
    ∀ (d : Nat) (h : Heap) (a : Nat) (cands : List (List Char)) (g : Rng)
      (h1 : Heap) (a1 : Nat) (cands1 : List (List Char)) (g1 : Rng),
      run_generations_heap el func wrv mc d h a cands g
        = .ok (h1, a1, cands1, g1) →
      (∀ x, x < h.cells.length → h1.get x = h.get x) ∧
      h.cells.length ≤ h1.cells.length := by
  intro d
  induction d with
  | zero =>
    intro h a cands g h1 a1 cands1 g1 hr
    simp only [run_generations_heap, Except.ok.injEq, Prod.mk.injEq] at hr
    obtain ⟨hh, -, -, -⟩ := hr
    subst hh
    exact ⟨fun x _ => rfl, le_refl _⟩
  | succ n ih =>
    intro h a cands g h1 a1 cands1 g1 hr
    simp only [run_generations_heap] at hr
    split at hr
    · simp at hr
    · rename_i h2 b g2 hm
      obtain ⟨hp, hl⟩ := mutate_all_heap_frame hm
      obtain ⟨hp2, hl2⟩ := ih h2 b _ g2 h1 a1 cands1 g1 hr
      constructor
      · intro x hx
        rw [hp2 x (lt_of_lt_of_le hx hl), hp x hx]
      · exact le_trans hl hl2

theorem run_trials_heap_frame (el : Nat) (func : List Char → TestOutcome)
    (wrv : Bool) (seedsAddr : Nat) (mc : Rat) (depth : Nat) :
    ∀ (t : Nat) (h : Heap) (cands : List (List Char)) (g : Rng)
      (h1 : Heap) (cands1 : List (List Char)) (g1 : Rng),
      run_trials_heap el func wrv seedsAddr mc depth t h cands g
        = .ok (h1, cands1, g1) →
      (∀ x, x < h.cells.length → h1.get x = h.get x) ∧
      h.cells.length ≤ h1.cells.length := by
  intro t
  induction t with
  | zero =>
    intro h cands g h1 cands1 g1 hr
    simp only [run_trials_heap, Except.ok.injEq, Prod.mk.injEq] at hr
    obtain ⟨hh, -, -⟩ := hr
    subst hh
    exact ⟨fun x _ => rfl, le_refl _⟩
  | succ n ih =>
    intro h cands g h1 cands1 g1 hr
    simp only [run_trials_heap] at hr
    split at hr
    · simp at hr
    · rename_i h2 a2 cands2 g2 hg
      obtain ⟨hp, hl⟩ := run_generations_heap_frame el func wrv mc depth h
        seedsAddr cands g h2 a2 cands2 g2 hg
      obtain ⟨hp2, hl2⟩ := ih h2 cands2 g2 h1 cands1 g1 hr
      constructor
      · intro x hx
        rw [hp2 x (lt_of_lt_of_le hx hl), hp x hx]
      · exact le_trans hl hl2

/-- C9: confirmed.  At the heap level, `run` never writes to any existing
list object — every generation is a freshly allocated list and the trial
loop only rebinds the population address — so after a successful run the
caller's seed list (any valid address, in particular `seedsAddr`) holds
exactly the same strings in the same order as before the call. -/
theorem C9_run_never_mutates_caller_seeds {el : Nat}
    {func : List Char → TestOutcome} {wrv : Bool} {seedsAddr : Nat} {mc : Rat}
    {depth trials : Nat} {h : Heap} {cands : List (List Char)} {g : Rng}
    {h1 : Heap} {cands1 : List (List Char)} {g1 : Rng}
    (hv : seedsAddr < h.cells.length)
    (hr : run_trials_heap el func wrv seedsAddr mc depth trials h cands g
      = .ok (h1, cands1, g1)) :
    h1.get seedsAddr = h.get seedsAddr :=
  (run_trials_heap_frame el func wrv seedsAddr mc depth trials h cands g
    h1 cands1 g1 hr).1 seedsAddr hv

/-- C9 witness: a concrete one-trial, one-generation heap run; the caller's
list at address 0 is unchanged, the new generation living at address 1. -/
theorem C9_witness :
    (0 < (⟨[[['a']]]⟩ : Heap).cells.length ∧
      run_trials_heap 100 (fun _ => TestOutcome.returns false) false 0 0 1 1
        ⟨[[['a']]]⟩ [] ⟨[0], []⟩ = .ok (⟨[[['a']], [['a']]]⟩, [], ⟨[], []⟩)) ∧
    (⟨[[['a']], [['a']]]⟩ : Heap).get 0 = (⟨[[['a']]]⟩ : Heap).get 0 := by
  have hr : run_trials_heap 100 (fun _ => TestOutcome.returns false) false 0 0
      1 1 ⟨[[['a']]]⟩ [] ⟨[0], []⟩
      = .ok (⟨[[['a']], [['a']]]⟩, [], ⟨[], []⟩) := rfl
  exact ⟨⟨by decide, hr⟩, C9_run_never_mutates_caller_seeds (by decide) hr⟩
